import Mathlib

/-!
Verification development for the orchestration-agent core declared in
src/orchagent/orch.h (event consumption and task consolidation, the
object-reference dependency graph, the RingBuffer hand-off queue, and the
id-list codec).  The header provides the data model (enums, type aliases,
default member initializers); the function bodies are not part of the
sources, so each operation is modelled from the specification, with the
header-declared structure kept faithfully.
-/

namespace OrchSpec

/-- Operation tag of a change tuple: SET (upsert) or DEL (delete). -/
inductive Op where
  | setCmd
  | delCmd
deriving DecidableEq

/-- Ordered field/value pairs of a tuple. -/
abbrev FieldValues := List (String × String)

/-- swss::KeyOpFieldsValuesTuple — one change event: key, operation,
ordered field/value pairs. -/
structure KeyOpFieldsValuesTuple where
  key : String
  op : Op
  fields : FieldValues
deriving DecidableEq

/-- task_process_status from orch.h lines 59-67. -/
inductive task_process_status where
  | task_success
  | task_invalid_entry
  | task_failed
  | task_need_retry
  | task_ignore
  | task_duplicated
deriving DecidableEq

/-- ref_resolve_status from orch.h lines 254-262. -/
inductive ref_resolve_status where
  | success
  | field_not_found
  | multiple_instances
  | not_resolved
  | empty
  | failure
deriving DecidableEq

/-- SyncMap (orch.h line 90): a multimap from key to tuple.  Modelled as a
list of (key, tuple) pairs; entries sharing a key keep insertion order,
which is the only ordering the multimap guarantees per key. -/
abbrev SyncMap := List (String × KeyOpFieldsValuesTuple)

/-- RING_SIZE from orch.h line 54. -/
def RING_SIZE : Nat := 30

/-- RingBuffer state (orch.h lines 187-219).  The header gives the members
and their initializers (head = 0, tail = 0, idle_status = true); the spec
says full/empty disambiguation tracks a count, head/tail wrap modulo
capacity, and capacity is fixed at construction. -/
structure RingBuffer (α : Type) where
  buffer : List (Option α)
  head : Nat := 0
  tail : Nat := 0
  count : Nat := 0
  idle_status : Bool := true
deriving DecidableEq

/-- Modelled from the spec: RingBuffer construction with a given capacity
(default RING_SIZE); the constructor body is not in the sources, the
member initializers are taken from the header. -/
def RingBuffer.new (α : Type) (size : Nat := RING_SIZE) : RingBuffer α :=
  { buffer := List.replicate size none }

/-- Fixed capacity of the buffer (the storage length chosen at construction). -/
def RingBuffer.capacity {α : Type} (rb : RingBuffer α) : Nat :=
  rb.buffer.length

/-- Modelled from the spec: IsFull is a snapshot predicate; with count
tracking, the buffer is full when the count reaches capacity. -/
def RingBuffer.IsFull {α : Type} (rb : RingBuffer α) : Bool :=
  rb.count == rb.capacity

/-- Modelled from the spec: IsEmpty is a snapshot predicate; the buffer is
empty when the count is zero. -/
def RingBuffer.IsEmpty {α : Type} (rb : RingBuffer α) : Bool :=
  rb.count == 0

/-- Modelled from the spec: IsIdle reports whether the drainer thread is
parked (the idle_status member). -/
def RingBuffer.IsIdle {α : Type} (rb : RingBuffer α) : Bool :=
  rb.idle_status

/-- Modelled from the spec: push fails (returns false) if the buffer is at
capacity and leaves it unchanged; otherwise it enqueues at the tail,
advances tail modulo capacity, and increments the count.  (The bodies of
RingBuffer methods are not in the sources.) -/
def RingBuffer.push {α : Type} (rb : RingBuffer α) (x : α) : Bool × RingBuffer α :=
  if rb.IsFull then (false, rb)
  else (true, { rb with buffer := rb.buffer.set rb.tail (some x),
                        tail := (rb.tail + 1) % rb.capacity,
                        count := rb.count + 1 })

/-- Modelled from the spec: pop fails (returns false) if the buffer is
empty; otherwise it dequeues from the head and advances head modulo
capacity. -/
def RingBuffer.pop {α : Type} (rb : RingBuffer α) : Bool × Option α × RingBuffer α :=
  if rb.IsEmpty then (false, none, rb)
  else (true, rb.buffer.getD rb.head none,
        { rb with head := (rb.head + 1) % rb.capacity,
                  count := rb.count - 1 })

/-- Push a whole list in order; returns the number of successful pushes and
the final buffer state. -/
def pushAll {α : Type} : RingBuffer α → List α → Nat × RingBuffer α
  | rb, [] => (0, rb)
  | rb, x :: xs =>
    let r := rb.push x
    let rest := pushAll r.2 xs
    ((if r.1 then 1 else 0) + rest.1, rest.2)

/-- Remove every pair carrying the given field name. -/
def eraseField (fvs : FieldValues) (f : String) : FieldValues :=
  fvs.filter (fun fv => fv.1 ≠ f)

/-- Modelled from the spec: field-level merge used by addToSync — each new
field value overwrites the same-named old field in place (old copies are
dropped, the new pair is appended), and previously-set fields absent from
the new tuple are preserved. -/
def mergeFieldValues (oldV newV : FieldValues) : FieldValues :=
  newV.foldl (fun acc fv => eraseField acc fv.1 ++ [fv]) oldV

/-- Last value assigned to a field in an ordered field list (later wins). -/
def lastVal (fvs : FieldValues) (f : String) : Option String :=
  fvs.foldl (fun acc fv => if fv.1 == f then some fv.2 else acc) none

/-- Whether the pending multimap holds some entry for the key. -/
def hasKey (m : SyncMap) (k : String) : Bool :=
  m.any (fun e => e.1 == k)

/-- Pending tuples for one key, in insertion order (the per-key view of the
multimap). -/
def entriesFor (m : SyncMap) (k : String) : List KeyOpFieldsValuesTuple :=
  (m.filter (fun e => e.1 == k)).map (fun e => e.2)

/-- Merge a SET tuple into the first pending entry sharing its key
(field-level merge, not tuple replacement). -/
def mergeFirstWithKey : SyncMap → KeyOpFieldsValuesTuple → SyncMap
  | [], t => [(t.key, t)]
  | e :: rest, t =>
    if e.1 == t.key then
      (e.1, { key := e.2.key, op := e.2.op,
              fields := mergeFieldValues e.2.fields t.fields }) :: rest
    else e :: mergeFirstWithKey rest t

/-- Modelled from the spec: ConsumerBase::addToSync (body not in the
sources).  A tuple for a fresh key is appended; a DELETE is always appended
as a new multimap entry; an UPSERT whose key already has pending entries is
field-merged into the pending upsert when no DELETE intervenes, and
appended otherwise. -/
def addToSync (m : SyncMap) (t : KeyOpFieldsValuesTuple) : SyncMap :=
  if ¬ hasKey m t.key then m ++ [(t.key, t)]
  else if t.op = Op.delCmd then m ++ [(t.key, t)]
  else if (entriesFor m t.key).any (fun e => e.op == Op.delCmd) then m ++ [(t.key, t)]
  else mergeFirstWithKey m t

/-- Modelled from the spec: whether a drain pass erases an entry that was
processed with the given status — every status except task_need_retry
removes the entry; task_need_retry retains it for the next pass. -/
def entryErased (s : task_process_status) : Bool :=
  match s with
  | task_process_status.task_need_retry => false
  | _ => true

/-- Modelled from the spec: one drain pass over the pending multimap — each
entry is handed to the task handler and erased unless the handler reports
task_need_retry, in which case it is retained unchanged. -/
def drainPass (handler : String → KeyOpFieldsValuesTuple → task_process_status)
    (m : SyncMap) : SyncMap :=
  m.filter (fun e => ! entryErased (handler e.1 e.2))

/-- referenced_object from orch.h lines 69-79: dependents (names without
table name), references held (field name to table-qualified referenced
names), the HAL handle, and the pending-removal flag. -/
structure referenced_object where
  m_objsDependingOnMe : List String
  m_objsReferencingByMe : List (String × String)
  m_saiObjectId : Nat
  m_pendingRemove : Bool
deriving DecidableEq

/-- object_reference_map from orch.h line 81 (object name to its record),
modelled as an association list. -/
abbrev object_reference_map := List (String × referenced_object)

/-- type_map from orch.h line 82 (table-type name to its object map). -/
abbrev type_map := List (String × object_reference_map)

/-- Association-list lookup (first entry with the key). -/
def alGet {β : Type} : List (String × β) → String → Option β
  | [], _ => none
  | e :: l, k => if e.1 == k then some e.2 else alGet l k

/-- Association-list erase (drops every entry with the key). -/
def alErase {β : Type} : List (String × β) → String → List (String × β)
  | [], _ => []
  | e :: l, k => if e.1 == k then alErase l k else e :: alErase l k

/-- Association-list map over every entry with the key. -/
def alMapAt {β : Type} : List (String × β) → String → (β → β) → List (String × β)
  | [], _, _ => []
  | e :: l, k, f => (if e.1 == k then (e.1, f e.2) else e) :: alMapAt l k f

/-- Association-list update-or-append. -/
def alSet {β : Type} (l : List (String × β)) (k : String) (v : β) : List (String × β) :=
  if l.any (fun e => e.1 == k) then
    l.map (fun e => if e.1 == k then (e.1, v) else e)
  else l ++ [(k, v)]

/-- Set-style insert for the dependents set (no duplicates, order kept). -/
def listInsert (s : List String) (x : String) : List String :=
  if x ∈ s then s else s ++ [x]

/-- Set-style erase for the dependents set. -/
def listErase (s : List String) (x : String) : List String :=
  s.filter (fun y => y ≠ x)

/-- Apply a record update to one object of one table of the graph; entries
of other tables or names are untouched, and a missing entry is a no-op. -/
def updateObj (tm : type_map) (table obj : String)
    (f : referenced_object → referenced_object) : type_map :=
  alMapAt tm table (fun omap => alMapAt omap obj f)

/-- Erase one object from one table of the graph. -/
def eraseObj (tm : type_map) (table obj : String) : type_map :=
  alMapAt tm table (fun omap => alErase omap obj)

/-- Look an object up through the graph: table first, then object name. -/
def objLookup (tm : type_map) (table obj : String) : Option referenced_object :=
  match alGet tm table with
  | some omap => alGet omap obj
  | none => none

/-- Split a character list at every occurrence of the separator. -/
def splitChars (c : Char) : List Char → List Char → List (List Char)
  | [], acc => [acc.reverse]
  | x :: xs, acc =>
    if x == c then acc.reverse :: splitChars c xs []
    else splitChars c xs (x :: acc)

/-- Split a string at every occurrence of the separator character. -/
def splitStr (c : Char) (s : String) : List String :=
  (splitChars c s.data []).map (fun l => String.mk l)

/-- Accumulator loop of the decimal parser. -/
def charsToNatAux : List Char → Nat → Option Nat
  | [], acc => some acc
  | x :: xs, acc =>
    if x.isDigit then charsToNatAux xs (acc * 10 + (x.toNat - 48)) else none

/-- Parse a non-empty all-digit character list as a decimal number. -/
def charsToNat (l : List Char) : Option Nat :=
  match l with
  | [] => none
  | _ => charsToNatAux l 0

/-- Split a table-qualified object name "TABLE:name" at the delimiter
declared in orch.h line 30. -/
def splitQualifiedName (s : String) : Option (String × String) :=
  match splitStr ':' s with
  | [t, o] => some (t, o)
  | _ => none

/-- Modelled from the spec: Orch::setObjectReference (body not in the
sources) — record that (table, obj) references the table-qualified name
referenced through the given field, and insert obj into the referenced
dependents set of the referenced object (edges are kept symmetric). -/
def setObjectReference (tm : type_map) (table obj field referenced : String) : type_map :=
  let tm1 := updateObj tm table obj (fun x =>
    { x with m_objsReferencingByMe := alSet x.m_objsReferencingByMe field referenced })
  match splitQualifiedName referenced with
  | some (rt, rn) =>
      updateObj tm1 rt rn (fun x =>
        { x with m_objsDependingOnMe := listInsert x.m_objsDependingOnMe obj })
  | none => tm1

/-- First value bound to a field name in the field list of a tuple. -/
def lookupField (fvs : FieldValues) (f : String) : Option String :=
  match fvs.find? (fun fv => fv.1 == f) with
  | some fv => some fv.2
  | none => none

/-- Modelled from the spec: parse a reference field value — the value is
wrapped in the ref_start/ref_end markers of orch.h lines 32-33 and holds a
comma-separated list of object names; an empty value denotes the empty
reference list. -/
def stripRefMarkers (l : List Char) : List Char :=
  match l with
  | '[' :: rest => if rest.getLast? == some ']' then rest.dropLast else l
  | _ => l

/-- Inner comma-separated name list of a reference value ([] when the value
is empty or holds only the markers). -/
def parseRefNames (v : String) : List String :=
  match stripRefMarkers v.data with
  | [] => []
  | inner => (splitChars ',' inner []).map (fun l => String.mk l)

/-- Modelled from the spec: Orch::resolveFieldRefValue (body not in the
sources).  Looks the field up in the tuple (absent → field_not_found),
parses its reference list (empty → empty, more than one name where exactly
one is required → multiple_instances), resolves the single name in the
given table of the type map (missing → not_resolved), and only on success
registers the dependency edge via setObjectReference and returns the
referenced HAL handle. -/
def resolveFieldRefValue (tm : type_map) (obj_table obj_name ref_type_name field_name : String)
    (t : KeyOpFieldsValuesTuple) : ref_resolve_status × type_map × Option Nat :=
  match lookupField t.fields field_name with
  | none => (ref_resolve_status.field_not_found, tm, none)
  | some v =>
    match parseRefNames v with
    | [] => (ref_resolve_status.empty, tm, none)
    | [n] =>
      match objLookup tm ref_type_name n with
      | none => (ref_resolve_status.not_resolved, tm, none)
      | some o =>
        (ref_resolve_status.success,
         setObjectReference tm obj_table obj_name field_name (ref_type_name ++ ":" ++ n),
         some o.m_saiObjectId)
    | _ => (ref_resolve_status.multiple_instances, tm, none)

/-- Modelled from the spec: Orch::removeObject (body not in the sources).
If the dependents set of the object is empty it is erased from the graph and a
HAL remove is issued (the returned Bool); otherwise it is only marked
m_pendingRemove and no HAL remove happens. -/
def removeObject (tm : type_map) (table obj : String) : type_map × Bool :=
  match objLookup tm table obj with
  | none => (tm, false)
  | some o =>
    if o.m_objsDependingOnMe.isEmpty then (eraseObj tm table obj, true)
    else (updateObj tm table obj (fun x => { x with m_pendingRemove := true }), false)

/-- Modelled from the spec: Orch::removeMeFromObjsReferencedByMe (body not
in the sources).  Detaches the edge from (table, obj) to the table-qualified
old referenced name: drops the field from the reference map of obj (when asked),
erases obj from the dependents of the referenced object, and — cascade — erases
the referenced object from the graph when it was pending removal and its
dependents set just became empty. -/
def removeMeFromObjsReferencedByMe (tm : type_map) (table obj field oldRef : String)
    (removeField : Bool) : type_map :=
  let tm1 :=
    if removeField then
      updateObj tm table obj (fun x =>
        { x with m_objsReferencingByMe := alErase x.m_objsReferencingByMe field })
    else tm
  match splitQualifiedName oldRef with
  | none => tm1
  | some (rt, rn) =>
    let tm2 := updateObj tm1 rt rn (fun x =>
      { x with m_objsDependingOnMe := listErase x.m_objsDependingOnMe obj })
    match objLookup tm2 rt rn with
    | some x =>
        if x.m_objsDependingOnMe.isEmpty && x.m_pendingRemove then eraseObj tm2 rt rn
        else tm2
    | none => tm2

/-- table_name_with_pri_t from orch.h line 92: the table name of a consumer with
its dispatch priority. -/
abbrev table_name_with_pri_t := String × Int

/-- Stable descending-priority insertion: walk past registered-earlier
consumers of strictly higher priority, so equal priorities keep
registration order. -/
def insertByPri (x : table_name_with_pri_t) :
    List table_name_with_pri_t → List table_name_with_pri_t
  | [] => [x]
  | y :: ys => if x.2 < y.2 then y :: insertByPri x ys else x :: y :: ys

/-- Modelled from the spec: the order in which Orch::doTask (body not in
the sources) visits its registered consumers — descending dispatch
priority, ties broken by registration order, each drained exactly once.
The input list is in registration order. -/
def doTaskConsumerOrder (cs : List table_name_with_pri_t) : List table_name_with_pri_t :=
  cs.foldr insertByPri []

/-- Ids denoted by an id-list string: comma-separated items, each a single
decimal id or a low-high range (range_specifier from orch.h line 35). -/
def idsOfStr (s : String) : List Nat :=
  (splitChars ',' s.data []).foldl (fun acc item =>
    match splitChars '-' item [] with
    | [a] =>
      match charsToNat a with
      | some n => acc ++ [n]
      | none => acc
    | [a, b] =>
      match charsToNat a, charsToNat b with
      | some lo, some hi => acc ++ (List.range (hi + 1 - lo)).map (fun i => lo + i)
      | _, _ => acc
    | _ => acc) []

/-- Modelled from the spec: Orch::generateBitMapFromIdsStr (body not in the
sources) — fold the parsed ids into a bitmap with one bit per id. -/
def generateBitMapFromIdsStr (s : String) : Nat :=
  (idsOfStr s).foldl (fun m n => m ||| (1 <<< n)) 0

/-- Ids present in a bitmap up to maxId, ascending. -/
def idsOfMap (idsMap maxId : Nat) : List Nat :=
  (List.range (maxId + 1)).filter (fun i => idsMap.testBit i)

/-- Render one contiguous id run: "lo" when degenerate, "lo-hi" otherwise. -/
def idsRangeString (lo hi : Nat) : String :=
  if lo == hi then String.mk (Nat.toDigits 10 lo)
  else String.mk (Nat.toDigits 10 lo ++ '-' :: Nat.toDigits 10 hi)

/-- Compress an ascending id list into maximal contiguous runs. -/
def compressIds (l : List Nat) : List (Nat × Nat) :=
  l.foldl (fun acc n =>
    match acc.getLast? with
    | some (lo, hi) => if n == hi + 1 then acc.dropLast ++ [(lo, n)] else acc ++ [(n, n)]
    | none => [(n, n)]) []

/-- Modelled from the spec: Orch::generateIdListFromMap (body not in the
sources) — the canonical contiguous-range-compressed rendering of a
bitmap, one string per run, ascending. -/
def generateIdListFromMap (idsMap maxId : Nat) : List String :=
  (compressIds (idsOfMap idsMap maxId)).map (fun p => idsRangeString p.1 p.2)

/-- Join the rendered runs with the list_item_delimiter of orch.h line 31. -/
def joinIdList : List String → String
  | [] => ""
  | [s] => s
  | s :: rest => s ++ "," ++ joinIdList rest

/-- Modelled from the spec: Orch::parseIndexRange (body not in the
sources) — accepts a single id or a "low-high" range, validating that
range_low <= range_high and that the ids fit the sai_uint32_t id domain. -/
def parseIndexRange (input : String) : Option (Nat × Nat) :=
  match splitChars '-' input.data [] with
  | [a] =>
    match charsToNat a with
    | some n => if n < 2 ^ 32 then some (n, n) else none
    | none => none
  | [a, b] =>
    match charsToNat a, charsToNat b with
    | some lo, some hi => if lo ≤ hi ∧ hi < 2 ^ 32 then some (lo, hi) else none
    | _, _ => none
  | _ => none

/-- Outcome of handing a pending tuple to the external request parser. -/
inductive request_parse_result where
  | parse_failed
  | parsed_set
  | parsed_del
deriving DecidableEq

/-- Modelled from the spec: how Orch2::doTask (body not in the sources)
settles one pending entry — parse failure marks it task_invalid_entry;
a parsed upsert goes to addOperation, a parsed delete to delOperation,
and their boolean result maps to task_success (true) or task_need_retry
(false). -/
def orch2HandleEntry (parse : KeyOpFieldsValuesTuple → request_parse_result)
    (addOperation delOperation : KeyOpFieldsValuesTuple → Bool)
    (t : KeyOpFieldsValuesTuple) : task_process_status :=
  match parse t with
  | request_parse_result.parse_failed => task_process_status.task_invalid_entry
  | request_parse_result.parsed_set =>
    if addOperation t then task_process_status.task_success
    else task_process_status.task_need_retry
  | request_parse_result.parsed_del =>
    if delOperation t then task_process_status.task_success
    else task_process_status.task_need_retry

/-- Modelled from the spec: one Orch2::doTask pass over the pending
multimap — every entry is settled by orch2HandleEntry; the statuses are
reported per entry and the entries whose status is task_need_retry are the
ones retained. -/
def orch2DoTask (parse : KeyOpFieldsValuesTuple → request_parse_result)
    (addOperation delOperation : KeyOpFieldsValuesTuple → Bool)
    (m : SyncMap) : List (KeyOpFieldsValuesTuple × task_process_status) × SyncMap :=
  (m.map (fun e => (e.2, orch2HandleEntry parse addOperation delOperation e.2)),
   m.filter (fun e =>
     orch2HandleEntry parse addOperation delOperation e.2 ==
       task_process_status.task_need_retry))

/-- Example tuples of the end-to-end upsert scenario of the spec. -/
def exT1 : KeyOpFieldsValuesTuple := ⟨"IF1", Op.setCmd, [("speed", "10")]⟩

/-- Second upsert of the scenario, a disjoint field for the same key. -/
def exT2 : KeyOpFieldsValuesTuple := ⟨"IF1", Op.setCmd, [("mtu", "1500")]⟩

/-- Example reference graph: a group with one dependent and the route that
references it. -/
def exTypeMap : type_map :=
  [("NH_TABLE", [("g1", ⟨["o1"], [], 42, false⟩)]),
   ("RT_TABLE", [("o1", ⟨[], [("nexthop_group", "NH_TABLE:g1")], 7, false⟩)])]

/-- Example task handler keyed on the entry key. -/
def exHandler : String → KeyOpFieldsValuesTuple → task_process_status :=
  fun k _ =>
    if k == "retryme" then task_process_status.task_need_retry
    else task_process_status.task_success

/-- Pending entry the example handler keeps retrying. -/
def exEntryA : String × KeyOpFieldsValuesTuple := ("retryme", ⟨"retryme", Op.setCmd, []⟩)

/-- Pending entry the example handler settles. -/
def exEntryB : String × KeyOpFieldsValuesTuple := ("done", ⟨"done", Op.setCmd, []⟩)

/-- Example request parser for the Orch2 dispatch model. -/
def exParse : KeyOpFieldsValuesTuple → request_parse_result :=
  fun t =>
    match t.op with
    | Op.setCmd => if t.fields.isEmpty then request_parse_result.parse_failed
                   else request_parse_result.parsed_set
    | Op.delCmd => request_parse_result.parsed_del

/-- Example addOperation: succeeds when a speed field is present. -/
def exAddOperation : KeyOpFieldsValuesTuple → Bool :=
  fun t => (lookupField t.fields "speed").isSome

/-- Example delOperation: always succeeds. -/
def exDelOperation : KeyOpFieldsValuesTuple → Bool := fun _ => true

/-! Helper lemmas. -/

theorem push_not_full {α : Type} (rb : RingBuffer α) (x : α)
    (h : rb.count < rb.capacity) :
    (rb.push x).1 = true ∧ (rb.push x).2.count = rb.count + 1 ∧
      (rb.push x).2.capacity = rb.capacity := by
  have hfull : rb.IsFull = false := by
    simp only [RingBuffer.IsFull, beq_eq_false_iff_ne, ne_eq]
    omega
  refine ⟨?_, ?_, ?_⟩ <;>
    simp [RingBuffer.push, hfull, RingBuffer.capacity, List.length_set]

theorem pushAll_succeeds {α : Type} (xs : List α) (rb : RingBuffer α)
    (h : rb.count + xs.length ≤ rb.capacity) :
    (pushAll rb xs).1 = xs.length ∧
      (pushAll rb xs).2.count = rb.count + xs.length ∧
      (pushAll rb xs).2.capacity = rb.capacity := by
  induction xs generalizing rb with
  | nil => simp [pushAll]
  | cons x xs ih =>
    have hlt : rb.count < rb.capacity := by
      simp only [List.length_cons] at h; omega
    obtain ⟨h1, h2, h3⟩ := push_not_full rb x hlt
    have hrec := ih (rb.push x).2 (by rw [h2, h3]; simp at h ⊢; omega)
    simp only [pushAll, h1, if_true, List.length_cons]
    exact ⟨by rw [hrec.1]; omega, by rw [hrec.2.1, h2]; omega, by rw [hrec.2.2, h3]⟩

/-! Claim theorems. -/

/-- Claim C10: immediately after construction a RingBuffer reports
IsIdle = true (idle_status defaults to true) and IsEmpty = true, with head
and tail both starting at 0 and the capacity fixed to the requested size,
so a producer observing a fresh buffer concludes the drainer is parked. -/
theorem ringbuffer_fresh_idle_and_empty (α : Type) (N : Nat) :
    (RingBuffer.new α N).IsIdle = true ∧
    (RingBuffer.new α N).IsEmpty = true ∧
    (RingBuffer.new α N).idle_status = true ∧
    (RingBuffer.new α N).head = 0 ∧
    (RingBuffer.new α N).tail = 0 ∧
    (RingBuffer.new α N).capacity = N := by
  refine ⟨rfl, rfl, rfl, rfl, rfl, ?_⟩
  simp [RingBuffer.new, RingBuffer.capacity]

/-- Claim C6: push on a full buffer returns false and leaves the buffer
unchanged; pop on an empty buffer returns false; and from empty, a
capacity-N buffer accepts exactly N consecutive pushes — all N succeed and
fill it, and the next push fails. -/
theorem ringbuffer_capacity_contract (α : Type) (N : Nat) (xs : List α) (x y : α)
    (rb : RingBuffer α) :
    (rb.IsFull = true → rb.push x = (false, rb)) ∧
    (rb.IsEmpty = true → (rb.pop).1 = false) ∧
    (xs.length = N →
      (pushAll (RingBuffer.new α N) xs).1 = N ∧
      (pushAll (RingBuffer.new α N) xs).2.IsFull = true ∧
      ((pushAll (RingBuffer.new α N) xs).2.push y).1 = false) := by
  refine ⟨?_, ?_, ?_⟩
  · intro h; simp [RingBuffer.push, h]
  · intro h; simp [RingBuffer.pop, h]
  · intro hlen
    have hcap : (RingBuffer.new α N).capacity = N := by
      simp [RingBuffer.new, RingBuffer.capacity]
    have hcnt : (RingBuffer.new α N).count = 0 := rfl
    obtain ⟨h1, h2, h3⟩ := pushAll_succeeds xs (RingBuffer.new α N)
      (by rw [hcap, hcnt, hlen]; omega)
    have hfull : (pushAll (RingBuffer.new α N) xs).2.IsFull = true := by
      simp only [RingBuffer.IsFull, h2, h3, hcap, hcnt, hlen, beq_iff_eq]
      omega
    refine ⟨by rw [h1, hlen], hfull, ?_⟩
    simp [RingBuffer.push, hfull]

/-- Witness for claim C6 at capacity 0 (full and empty at once) and at
capacity 2 with two pushes. -/
theorem ringbuffer_capacity_contract_witness :
    (RingBuffer.new Nat 0).IsFull = true ∧
    (RingBuffer.new Nat 0).push 5 = (false, RingBuffer.new Nat 0) ∧
    (RingBuffer.new Nat 0).IsEmpty = true ∧
    ((RingBuffer.new Nat 0).pop).1 = false ∧
    ([1, 2] : List Nat).length = 2 ∧
    (pushAll (RingBuffer.new Nat 2) [1, 2]).1 = 2 ∧
    (pushAll (RingBuffer.new Nat 2) [1, 2]).2.IsFull = true ∧
    ((pushAll (RingBuffer.new Nat 2) [1, 2]).2.push 6).1 = false :=
  have h0 := ringbuffer_capacity_contract Nat 0 ([] : List Nat) 5 6 (RingBuffer.new Nat 0)
  have h2 := ringbuffer_capacity_contract Nat 2 [1, 2] 5 6 (RingBuffer.new Nat 0)
  ⟨by decide, h0.1 (by decide), by decide, h0.2.1 (by decide), by decide,
   (h2.2.2 (by decide)).1, (h2.2.2 (by decide)).2.1, (h2.2.2 (by decide)).2.2⟩

/-- Claim C8: the id-list codec round-trips on 2-4,7 — parsing yields the
ids 2, 3, 4, 7, the bitmap has exactly those bits, rendering the bitmap
back gives the canonical compressed string — and parseIndexRange accepts a
range only when range_low is at most range_high and the ids fit the
sai_uint32_t domain. -/
theorem id_list_codec_round_trip :
    idsOfStr "2-4,7" = [2, 3, 4, 7] ∧
    generateBitMapFromIdsStr "2-4,7" = 2 ^ 2 + 2 ^ 3 + 2 ^ 4 + 2 ^ 7 ∧
    joinIdList (generateIdListFromMap (generateBitMapFromIdsStr "2-4,7") 31) = "2-4,7" ∧
    (∀ s lo hi, parseIndexRange s = some (lo, hi) → lo ≤ hi ∧ hi < 2 ^ 32) := by
  refine ⟨by decide, by decide, by decide, ?_⟩
  intro s lo hi h
  unfold parseIndexRange at h
  split at h
  · split at h
    · split at h
      · simp only [Option.some.injEq, Prod.mk.injEq] at h
        omega
      · exact absurd h (by simp)
    · exact absurd h (by simp)
  · split at h
    · split at h
      · simp only [Option.some.injEq, Prod.mk.injEq] at h
        omega
      · exact absurd h (by simp)
    · exact absurd h (by simp)
  · exact absurd h (by simp)

/-- Witness for claim C8: parseIndexRange on 2-4 with the validated bounds. -/
theorem id_list_codec_round_trip_witness :
    parseIndexRange "2-4" = some (2, 4) ∧ 2 ≤ 4 ∧ 4 < 2 ^ 32 :=
  ⟨by decide, id_list_codec_round_trip.2.2.2 "2-4" 2 4 (by decide)⟩

/-- Claim C5: a drain pass erases a processed entry exactly when the
handler status is task_success, task_invalid_entry, task_failed,
task_ignore or task_duplicated, and retains it (in place, order kept)
exactly when the status is task_need_retry. -/
theorem drain_pass_retention
    (handler : String → KeyOpFieldsValuesTuple → task_process_status) (m : SyncMap) :
    (drainPass handler m).Sublist m ∧
    (∀ e, e ∈ m →
      (e ∈ drainPass handler m ↔ handler e.1 e.2 = task_process_status.task_need_retry)) ∧
    (∀ s, entryErased s = false ↔ s = task_process_status.task_need_retry) ∧
    (∀ s, entryErased s = true ↔
      (s = task_process_status.task_success ∨ s = task_process_status.task_invalid_entry ∨
       s = task_process_status.task_failed ∨ s = task_process_status.task_ignore ∨
       s = task_process_status.task_duplicated)) := by
  have herase : ∀ s, (! entryErased s) = true ↔ s = task_process_status.task_need_retry := by
    intro s; cases s <;> simp [entryErased]
  refine ⟨List.filter_sublist _, ?_, ?_, ?_⟩
  · intro e he
    rw [drainPass, List.mem_filter]
    simp [he, herase]
  · intro s; cases s <;> simp [entryErased]
  · intro s; cases s <;> simp [entryErased]

/-- Witness for claim C5: the example handler retains the retried entry and
drops the settled one. -/
theorem drain_pass_retention_witness :
    exEntryA ∈ [exEntryA, exEntryB] ∧
    (exEntryA ∈ drainPass exHandler [exEntryA, exEntryB] ↔
      exHandler exEntryA.1 exEntryA.2 = task_process_status.task_need_retry) :=
  ⟨by decide,
   (drain_pass_retention exHandler [exEntryA, exEntryB]).2.1 exEntryA (by decide)⟩

/-- Claim C9: Orch2 doTask marks parse failures task_invalid_entry,
dispatches parsed upserts to addOperation and parsed deletes to
delOperation, maps a true result to task_success and a false result to
task_need_retry, and never yields task_failed through this path. -/
theorem orch2_doTask_status_mapping
    (parse : KeyOpFieldsValuesTuple → request_parse_result)
    (addOperation delOperation : KeyOpFieldsValuesTuple → Bool) (m : SyncMap) :
    ∀ r ∈ (orch2DoTask parse addOperation delOperation m).1,
      r.2 ≠ task_process_status.task_failed ∧
      (r.2 = task_process_status.task_invalid_entry ↔
        parse r.1 = request_parse_result.parse_failed) ∧
      (r.2 = task_process_status.task_success ↔
        ((parse r.1 = request_parse_result.parsed_set ∧ addOperation r.1 = true) ∨
         (parse r.1 = request_parse_result.parsed_del ∧ delOperation r.1 = true))) ∧
      (r.2 = task_process_status.task_need_retry ↔
        ((parse r.1 = request_parse_result.parsed_set ∧ addOperation r.1 = false) ∨
         (parse r.1 = request_parse_result.parsed_del ∧ delOperation r.1 = false))) := by
  intro r hr
  simp only [orch2DoTask, List.mem_map] at hr
  obtain ⟨e, _, rfl⟩ := hr
  cases hp : parse e.2 <;> cases ha : addOperation e.2 <;> cases hd : delOperation e.2 <;>
    simp [orch2HandleEntry, hp, ha, hd]

/-- Witness for claim C9 on a concrete parsed upsert whose addOperation
succeeds. -/
theorem orch2_doTask_status_mapping_witness :
    (exT1, task_process_status.task_success) ∈
      (orch2DoTask exParse exAddOperation exDelOperation [("IF1", exT1)]).1 ∧
    (exT1, task_process_status.task_success).2 ≠ task_process_status.task_failed :=
  ⟨by decide,
   (orch2_doTask_status_mapping exParse exAddOperation exDelOperation [("IF1", exT1)]
     (exT1, task_process_status.task_success) (by decide)).1⟩

theorem hasKey_true_iff (m : SyncMap) (k : String) :
    hasKey m k = true ↔ entriesFor m k ≠ [] := by
  induction m with
  | nil => simp [hasKey, entriesFor]
  | cons e m ih =>
    by_cases he : e.1 = k <;>
      simp [hasKey, entriesFor, List.filter_cons, he] at ih ⊢ <;> simpa using ih

theorem entriesFor_append_one (m : SyncMap) (k : String)
    (e : String × KeyOpFieldsValuesTuple) :
    entriesFor (m ++ [e]) k = entriesFor m k ++ (if e.1 = k then [e.2] else []) := by
  by_cases he : e.1 = k <;> simp [entriesFor, List.filter_append, he]

/-- Claim C4: when a key has pending UPSERT entries, addToSync of a DELETE
for that key appends a new multimap entry — the UPSERTs are neither merged
into nor replaced, and afterwards both are present for the key in insertion
order. -/
theorem addToSync_delete_appended (m : SyncMap) (k : String) (fs : FieldValues)
    (hne : entriesFor m k ≠ [])
    (hset : ∀ u ∈ entriesFor m k, u.op = Op.setCmd) :
    addToSync m ⟨k, Op.delCmd, fs⟩ = m ++ [(k, ⟨k, Op.delCmd, fs⟩)] ∧
    entriesFor (addToSync m ⟨k, Op.delCmd, fs⟩) k =
      entriesFor m k ++ [(⟨k, Op.delCmd, fs⟩ : KeyOpFieldsValuesTuple)] := by
  have hk : hasKey m k = true := (hasKey_true_iff m k).mpr hne
  have h1 : addToSync m ⟨k, Op.delCmd, fs⟩ = m ++ [(k, ⟨k, Op.delCmd, fs⟩)] := by
    unfold addToSync
    simp [hk]
  refine ⟨h1, ?_⟩
  rw [h1, entriesFor_append_one]
  simp

/-- Witness for claim C4: a DELETE queued after the pending upsert for IF1
is appended, leaving both entries visible in order. -/
theorem addToSync_delete_appended_witness :
    entriesFor [("IF1", exT1)] "IF1" ≠ [] ∧
    (∀ u ∈ entriesFor [("IF1", exT1)] "IF1", u.op = Op.setCmd) ∧
    entriesFor (addToSync [("IF1", exT1)] ⟨"IF1", Op.delCmd, []⟩) "IF1" =
      entriesFor [("IF1", exT1)] "IF1" ++ [(⟨"IF1", Op.delCmd, []⟩ : KeyOpFieldsValuesTuple)] :=
  ⟨by decide, by decide,
   (addToSync_delete_appended [("IF1", exT1)] "IF1" [] (by decide) (by decide)).2⟩

theorem perm_insertByPri (x : table_name_with_pri_t) (l : List table_name_with_pri_t) :
    (insertByPri x l).Perm (x :: l) := by
  induction l with
  | nil => simp [insertByPri]
  | cons y ys ih =>
    unfold insertByPri
    by_cases h : x.2 < y.2
    · simp only [h, if_true]
      exact (ih.cons y).trans (List.Perm.swap x y ys)
    · simp [h]

theorem sorted_insertByPri (x : table_name_with_pri_t) (l : List table_name_with_pri_t)
    (h : l.Pairwise (fun a b => b.2 ≤ a.2)) :
    (insertByPri x l).Pairwise (fun a b => b.2 ≤ a.2) := by
  induction l with
  | nil => simp [insertByPri]
  | cons y ys ih =>
    rcases List.pairwise_cons.mp h with ⟨hy, hys⟩
    unfold insertByPri
    by_cases hxy : x.2 < y.2
    · simp only [hxy, if_true]
      refine List.pairwise_cons.mpr ⟨?_, ih hys⟩
      intro z hz
      rcases List.mem_cons.mp ((perm_insertByPri x ys).mem_iff.mp hz) with rfl | hz
      · exact le_of_lt hxy
      · exact hy z hz
    · simp only [hxy, if_false]
      refine List.pairwise_cons.mpr ⟨?_, h⟩
      intro z hz
      rcases List.mem_cons.mp hz with rfl | hz
      · exact le_of_not_lt hxy
      · exact le_trans (hy z hz) (le_of_not_lt hxy)

theorem filter_insertByPri (x : table_name_with_pri_t) (l : List table_name_with_pri_t)
    (p : Int) :
    (insertByPri x l).filter (fun c => c.2 == p) =
      if x.2 = p then x :: l.filter (fun c => c.2 == p)
      else l.filter (fun c => c.2 == p) := by
  induction l with
  | nil => by_cases h : x.2 = p <;> simp [insertByPri, List.filter_cons, h]
  | cons y ys ih =>
    unfold insertByPri
    by_cases hxy : x.2 < y.2
    · simp only [hxy, if_true, List.filter_cons]
      by_cases hx : x.2 = p
      · have hyne : ¬ y.2 = p := by omega
        simp [hx, hyne, ih]
      · by_cases hy : y.2 = p <;> simp [hx, hy, ih]
    · simp only [hxy, if_false, List.filter_cons]
      by_cases hx : x.2 = p <;> simp [hx]

/-- Claim C7: doTask visits the registered consumers in descending dispatch
priority, each exactly once per pass (the drain sequence is a permutation
of the registered set), with ties between equal priorities kept in
registration order. -/
theorem doTask_consumer_order (cs : List table_name_with_pri_t) :
    (doTaskConsumerOrder cs).Perm cs ∧
    (doTaskConsumerOrder cs).Pairwise (fun a b => b.2 ≤ a.2) ∧
    (∀ p : Int, (doTaskConsumerOrder cs).filter (fun c => c.2 == p) =
      cs.filter (fun c => c.2 == p)) := by
  induction cs with
  | nil => simp [doTaskConsumerOrder]
  | cons c cs ih =>
    have h1 : doTaskConsumerOrder (c :: cs) = insertByPri c (doTaskConsumerOrder cs) := rfl
    refine ⟨?_, ?_, ?_⟩
    · rw [h1]; exact (perm_insertByPri c _).trans (ih.1.cons c)
    · rw [h1]; exact sorted_insertByPri c _ ih.2.1
    · intro p
      rw [h1, filter_insertByPri]
      by_cases hc : c.2 = p <;> simp [hc, List.filter_cons, ih.2.2 p]

/-- Claim C1: resolveFieldRefValue returns success exactly when the
reference field is present, encodes exactly one object name, and that name
resolves in the type map; on every non-success status the returned graph is
the unmodified input — no dependency edge is inserted. -/
theorem resolveFieldRefValue_success_iff (tm : type_map)
    (obj_table obj_name ref_type_name field_name : String) (t : KeyOpFieldsValuesTuple) :
    ((resolveFieldRefValue tm obj_table obj_name ref_type_name field_name t).1 =
        ref_resolve_status.success ↔
      (∃ v n o, lookupField t.fields field_name = some v ∧ parseRefNames v = [n] ∧
        objLookup tm ref_type_name n = some o)) ∧
    ((resolveFieldRefValue tm obj_table obj_name ref_type_name field_name t).1 ≠
        ref_resolve_status.success →
      (resolveFieldRefValue tm obj_table obj_name ref_type_name field_name t).2.1 = tm) := by
  unfold resolveFieldRefValue
  cases hf : lookupField t.fields field_name with
  | none => simp [hf]
  | some v =>
    cases hp : parseRefNames v with
    | nil => simp [hp]
    | cons n rest =>
      cases rest with
      | nil =>
        cases ho : objLookup tm ref_type_name n with
        | none => simp [hp, ho]
        | some o => simp [hp, ho]
      | cons b rest2 => simp [hp]

/-- Witness for claim C1: a tuple without the reference field yields a
non-success status and the graph is untouched. -/
theorem resolveFieldRefValue_success_iff_witness :
    (resolveFieldRefValue exTypeMap "RT_TABLE" "o1" "NH_TABLE" "nexthop_group"
        ⟨"k", Op.setCmd, [("x", "y")]⟩).1 ≠ ref_resolve_status.success ∧
    (resolveFieldRefValue exTypeMap "RT_TABLE" "o1" "NH_TABLE" "nexthop_group"
        ⟨"k", Op.setCmd, [("x", "y")]⟩).2.1 = exTypeMap :=
  ⟨by decide,
   (resolveFieldRefValue_success_iff exTypeMap "RT_TABLE" "o1" "NH_TABLE" "nexthop_group"
     ⟨"k", Op.setCmd, [("x", "y")]⟩).2 (by decide)⟩

theorem alGet_alMapAt {β : Type} (l : List (String × β)) (k k2 : String) (f : β → β) :
    alGet (alMapAt l k f) k2 = if k2 = k then (alGet l k2).map f else alGet l k2 := by
  induction l with
  | nil => by_cases h : k2 = k <;> simp [alGet, alMapAt, h]
  | cons e l ih =>
    simp only [alMapAt]
    by_cases h1 : e.1 = k
    · by_cases h2 : k2 = k
      · have h3 : e.1 = k2 := by rw [h1, h2]
        simp [alGet, h1, h2, h3]
      · have h3 : ¬ e.1 = k2 := fun hh => h2 (by rw [← hh, h1])
        have h4 : ¬ k = k2 := fun hh => h2 hh.symm
        simp [alGet, h1, h2, h3, h4, ih]
    · by_cases h3 : e.1 = k2
      · have h2 : ¬ k2 = k := fun hh => h1 (by rw [h3, hh])
        simp [alGet, h1, h2, h3]
      · simp [alGet, h1, h3, ih]

theorem alGet_alErase {β : Type} (l : List (String × β)) (k k2 : String) :
    alGet (alErase l k) k2 = if k2 = k then none else alGet l k2 := by
  induction l with
  | nil => by_cases h : k2 = k <;> simp [alGet, alErase, h]
  | cons e l ih =>
    simp only [alErase]
    by_cases h1 : e.1 = k
    · by_cases h2 : k2 = k
      · rw [h2] at ih
        simp [alGet, h1, h2] at ih ⊢
        exact ih
      · have h3 : ¬ e.1 = k2 := fun hh => h2 (by rw [← hh, h1])
        have h4 : ¬ k = k2 := fun hh => h2 hh.symm
        simp [alGet, h1, h2, h3, h4, ih]
    · by_cases h3 : e.1 = k2
      · have h2 : ¬ k2 = k := fun hh => h1 (by rw [h3, hh])
        simp [alGet, h1, h2, h3]
      · simp [alGet, h1, h3, ih]

theorem objLookup_updateObj (tm : type_map) (table obj t2 o2 : String)
    (f : referenced_object → referenced_object) :
    objLookup (updateObj tm table obj f) t2 o2 =
      if t2 = table ∧ o2 = obj then (objLookup tm t2 o2).map f
      else objLookup tm t2 o2 := by
  unfold objLookup updateObj
  rw [alGet_alMapAt]
  by_cases ht : t2 = table
  · cases h : alGet tm t2 with
    | none => by_cases ho : o2 = obj <;> simp [ht, ho]
    | some omap =>
      by_cases ho : o2 = obj <;> simp [ht, ho, alGet_alMapAt]
  · simp [ht]

theorem objLookup_eraseObj (tm : type_map) (table obj t2 o2 : String) :
    objLookup (eraseObj tm table obj) t2 o2 =
      if t2 = table ∧ o2 = obj then none else objLookup tm t2 o2 := by
  unfold objLookup eraseObj
  rw [alGet_alMapAt]
  by_cases ht : t2 = table
  · cases h : alGet tm t2 with
    | none => by_cases ho : o2 = obj <;> simp [ht, ho]
    | some omap =>
      by_cases ho : o2 = obj <;> simp [ht, ho, alGet_alErase]
  · simp [ht]

/-- Claim C2: removeObject on an object with a non-empty dependents set
does not erase it from the graph and issues no HAL remove — it only sets
m_pendingRemove; and once the last dependent detaches its edge through
removeMeFromObjsReferencedByMe, the object is erased from the graph
automatically, with no further remove request. -/
theorem removeObject_defers_until_last_dependent (tm : type_map)
    (table A dTable D field : String) (oA : referenced_object)
    (hA : objLookup tm table A = some oA)
    (hdep : oA.m_objsDependingOnMe ≠ []) :
    (removeObject tm table A).2 = false ∧
    objLookup (removeObject tm table A).1 table A =
      some { oA with m_pendingRemove := true } ∧
    (oA.m_objsDependingOnMe = [D] → ¬ (dTable = table ∧ D = A) →
      splitQualifiedName (table ++ ":" ++ A) = some (table, A) →
      objLookup (removeMeFromObjsReferencedByMe (removeObject tm table A).1
        dTable D field (table ++ ":" ++ A) true) table A = none) := by
  have hemp : oA.m_objsDependingOnMe.isEmpty = false := by
    cases hl : oA.m_objsDependingOnMe with
    | nil => exact absurd hl hdep
    | cons a l => simp
  have hro : removeObject tm table A =
      (updateObj tm table A (fun x => { x with m_pendingRemove := true }), false) := by
    unfold removeObject
    rw [hA]
    simp [hemp]
  have hlookP : objLookup (removeObject tm table A).1 table A =
      some { oA with m_pendingRemove := true } := by
    rw [hro]
    rw [objLookup_updateObj]
    simp [hA]
  refine ⟨by rw [hro], hlookP, ?_⟩
  intro hD hne hsplit
  simp only [removeMeFromObjsReferencedByMe, hsplit, if_true]
  have hlook1 : objLookup (updateObj (removeObject tm table A).1 dTable D
      (fun x => { x with m_objsReferencingByMe := alErase x.m_objsReferencingByMe field }))
      table A = some { oA with m_pendingRemove := true } := by
    rw [objLookup_updateObj]
    have hcond : ¬ (table = dTable ∧ A = D) := fun hh => hne ⟨hh.1.symm, hh.2.symm⟩
    simp only [hcond, if_false]
    exact hlookP
  have hlook2 : objLookup (updateObj (updateObj (removeObject tm table A).1 dTable D
      (fun x => { x with m_objsReferencingByMe := alErase x.m_objsReferencingByMe field }))
      table A (fun x => { x with m_objsDependingOnMe := listErase x.m_objsDependingOnMe D }))
      table A =
      some { oA with m_pendingRemove := true,
                     m_objsDependingOnMe := listErase oA.m_objsDependingOnMe D } := by
    rw [objLookup_updateObj]
    simp [hlook1]
  rw [hlook2]
  have hnil : listErase oA.m_objsDependingOnMe D = [] := by
    rw [hD]
    simp [listErase]
  simp only [hnil]
  simp only [List.isEmpty_nil, Bool.true_and]
  simp [objLookup_eraseObj]

/-- Witness for claim C2: the group with one dependent is only marked
pending on remove, and detaching the dependent edge erases it. -/
theorem removeObject_defers_until_last_dependent_witness :
    (removeObject exTypeMap "NH_TABLE" "g1").2 = false ∧
    objLookup (removeObject exTypeMap "NH_TABLE" "g1").1 "NH_TABLE" "g1" =
      some ⟨["o1"], [], 42, true⟩ ∧
    objLookup (removeMeFromObjsReferencedByMe (removeObject exTypeMap "NH_TABLE" "g1").1
      "RT_TABLE" "o1" "nexthop_group" "NH_TABLE:g1" true) "NH_TABLE" "g1" = none :=
  have h := removeObject_defers_until_last_dependent exTypeMap "NH_TABLE" "g1"
    "RT_TABLE" "o1" "nexthop_group" ⟨["o1"], [], 42, false⟩ (by decide) (by decide)
  ⟨h.1, h.2.1, h.2.2 (by decide) (by decide) (by decide)⟩

theorem lastVal_foldl_init (ys : FieldValues) (f : String) (a : Option String) :
    ys.foldl (fun acc fv => if fv.1 == f then some fv.2 else acc) a =
      match lastVal ys f with
      | some v => some v
      | none => a := by
  induction ys generalizing a with
  | nil => simp [lastVal]
  | cons fv ys ih =>
    simp only [List.foldl_cons]
    rw [ih]
    have h2 : lastVal (fv :: ys) f =
        match lastVal ys f with
        | some v => some v
        | none => if fv.1 == f then some fv.2 else none := by
      unfold lastVal
      simp only [List.foldl_cons]
      exact ih (if fv.1 == f then some fv.2 else none)
    rw [h2]
    cases h : lastVal ys f <;> cases hb : (fv.1 == f) <;> simp [hb]

theorem lastVal_cons (fv : String × String) (xs : FieldValues) (f : String) :
    lastVal (fv :: xs) f =
      match lastVal xs f with
      | some v => some v
      | none => if fv.1 == f then some fv.2 else none := by
  unfold lastVal
  simp only [List.foldl_cons]
  exact lastVal_foldl_init xs f _

theorem lastVal_append (xs ys : FieldValues) (f : String) :
    lastVal (xs ++ ys) f =
      match lastVal ys f with
      | some v => some v
      | none => lastVal xs f := by
  unfold lastVal
  rw [List.foldl_append]
  exact lastVal_foldl_init ys f _

theorem lastVal_eraseField (xs : FieldValues) (g f : String) (h : ¬ f = g) :
    lastVal (eraseField xs g) f = lastVal xs f := by
  induction xs with
  | nil => simp [eraseField]
  | cons fv xs ih =>
    by_cases hg : fv.1 = g
    · have hdrop : eraseField (fv :: xs) g = eraseField xs g := by
        simp [eraseField, List.filter_cons, hg]
      have hne : (fv.1 == f) = false := by
        rw [hg]
        exact beq_eq_false_iff_ne.mpr (fun hh => h hh.symm)
      rw [hdrop, ih, lastVal_cons]
      cases hl : lastVal xs f <;> simp [hne]
    · have hkeep : eraseField (fv :: xs) g = fv :: eraseField xs g := by
        simp [eraseField, List.filter_cons, hg]
      rw [hkeep, lastVal_cons, lastVal_cons, ih]

theorem lastVal_mergeFieldValues (oldV newV : FieldValues) (f : String) :
    lastVal (mergeFieldValues oldV newV) f = lastVal (oldV ++ newV) f := by
  induction newV generalizing oldV with
  | nil => simp [mergeFieldValues]
  | cons fv newV ih =>
    have hstep : mergeFieldValues oldV (fv :: newV) =
        mergeFieldValues (eraseField oldV fv.1 ++ [fv]) newV := rfl
    rw [hstep, ih, List.append_assoc]
    simp only [List.singleton_append]
    rw [lastVal_append, lastVal_append]
    cases h : lastVal (fv :: newV) f with
    | some v => rfl
    | none =>
      have hne : ¬ f = fv.1 := by
        rw [lastVal_cons] at h
        cases hl : lastVal newV f with
        | some v => rw [hl] at h; exact absurd h (by simp)
        | none =>
          rw [hl] at h
          cases hb : (fv.1 == f) with
          | true => rw [hb] at h; exact absurd h (by simp)
          | false => exact fun hh => by simp [hh] at hb
      rw [lastVal_eraseField oldV fv.1 f hne]

theorem entriesFor_cons (e : String × KeyOpFieldsValuesTuple) (m : SyncMap) (k : String) :
    entriesFor (e :: m) k =
      if e.1 = k then e.2 :: entriesFor m k else entriesFor m k := by
  by_cases h : e.1 = k <;> simp [entriesFor, List.filter_cons, h]

theorem entriesFor_mergeFirstWithKey (m : SyncMap) (t u : KeyOpFieldsValuesTuple)
    (h : entriesFor m t.key = [u]) :
    entriesFor (mergeFirstWithKey m t) t.key =
      [{ key := u.key, op := u.op, fields := mergeFieldValues u.fields t.fields }] := by
  induction m with
  | nil => simp [entriesFor] at h
  | cons e m ih =>
    rw [entriesFor_cons] at h
    by_cases he : e.1 = t.key
    · simp only [he, if_true, List.cons.injEq] at h
      obtain ⟨h1, h2⟩ := h
      unfold mergeFirstWithKey
      simp only [he, beq_self_eq_true, if_true]
      rw [entriesFor_cons]
      simp [he, h1, h2]
    · simp only [he, if_false] at h
      unfold mergeFirstWithKey
      have hb : (e.1 == t.key) = false := beq_eq_false_iff_ne.mpr he
      simp only [hb, Bool.false_eq_true, if_false]
      rw [entriesFor_cons]
      simp [he, ih h]

theorem foldl_addToSync_sets (k : String) (ts : List KeyOpFieldsValuesTuple)
    (m : SyncMap) (u : KeyOpFieldsValuesTuple)
    (hm : entriesFor m k = [u]) (hu : u.op = Op.setCmd)
    (hts : ∀ t ∈ ts, t.key = k ∧ t.op = Op.setCmd) :
    ∃ w, entriesFor (ts.foldl addToSync m) k = [w] ∧ w.op = Op.setCmd ∧
      ∀ f, lastVal w.fields f =
        lastVal (u.fields ++ (ts.map (fun t => t.fields)).join) f := by
  induction ts generalizing m u with
  | nil => exact ⟨u, hm, hu, fun f => by simp⟩
  | cons t ts ih =>
    obtain ⟨hk1, hset⟩ := hts t (List.mem_cons_self t ts)
    have hkey : hasKey m t.key = true := by
      rw [hk1]
      exact (hasKey_true_iff m k).mpr (by rw [hm]; simp)
    have hnd : (entriesFor m t.key).any (fun e => e.op == Op.delCmd) = false := by
      rw [hk1, hm]
      simp [hu]
    have hstep : addToSync m t = mergeFirstWithKey m t := by
      unfold addToSync
      simp [hkey, hset, hnd]
    have hm2 : entriesFor (addToSync m t) k =
        [{ key := u.key, op := u.op, fields := mergeFieldValues u.fields t.fields }] := by
      have hh := entriesFor_mergeFirstWithKey m t u (by rw [hk1]; exact hm)
      rw [hk1] at hh
      rw [hstep]
      exact hh
    obtain ⟨w, hw1, hw2, hw3⟩ := ih (addToSync m t)
      { key := u.key, op := u.op, fields := mergeFieldValues u.fields t.fields }
      hm2 (by simp [hu]) (fun x hx => hts x (List.mem_cons_of_mem t hx))
    refine ⟨w, by rw [List.foldl_cons]; exact hw1, hw2, ?_⟩
    intro f
    rw [hw3 f]
    simp only [List.map_cons, List.join_cons, ← List.append_assoc]
    rw [lastVal_append, lastVal_append, lastVal_mergeFieldValues]

/-- Claim C3: a run of UPSERTs for one key with no intervening DELETE
consolidates to a single pending entry whose fields are the field-by-field
union of all the tuples, later values winning and earlier fields absent
from later tuples preserved. -/
theorem addToSync_upsert_consolidation (m : SyncMap) (k : String)
    (ts : List KeyOpFieldsValuesTuple)
    (hk : hasKey m k = false) (hne : ts ≠ [])
    (hts : ∀ t ∈ ts, t.key = k ∧ t.op = Op.setCmd) :
    ∃ w, entriesFor (ts.foldl addToSync m) k = [w] ∧ w.op = Op.setCmd ∧
      ∀ f, lastVal w.fields f = lastVal ((ts.map (fun t => t.fields)).join) f := by
  cases ts with
  | nil => exact absurd rfl hne
  | cons t ts =>
    obtain ⟨hk1, hset⟩ := hts t (List.mem_cons_self t ts)
    have hfresh : ¬ hasKey m t.key := by rw [hk1]; simp [hk]
    have h0 : addToSync m t = m ++ [(t.key, t)] := by
      unfold addToSync
      simp [hfresh]
    have hnilm : entriesFor m k = [] := by
      cases hh : entriesFor m k with
      | nil => rfl
      | cons a l =>
        exact absurd ((hasKey_true_iff m k).mpr (by rw [hh]; simp)) (by simp [hk])
    have hm : entriesFor (addToSync m t) k = [t] := by
      rw [h0, entriesFor_append_one]
      simp [hk1, hnilm]
    obtain ⟨w, h1, h2, h3⟩ := foldl_addToSync_sets k ts (addToSync m t) t hm hset
      (fun x hx => hts x (List.mem_cons_of_mem t hx))
    refine ⟨w, by rw [List.foldl_cons]; exact h1, h2, ?_⟩
    intro f
    rw [h3 f]
    simp

/-- Witness for claim C3: the two-upsert scenario for IF1 consolidates into
one entry carrying both fields. -/
theorem addToSync_upsert_consolidation_witness :
    hasKey [] "IF1" = false ∧
    ([exT1, exT2] : List KeyOpFieldsValuesTuple) ≠ [] ∧
    (∀ t ∈ [exT1, exT2], t.key = "IF1" ∧ t.op = Op.setCmd) ∧
    (∃ w, entriesFor ([exT1, exT2].foldl addToSync []) "IF1" = [w] ∧ w.op = Op.setCmd ∧
      ∀ f, lastVal w.fields f = lastVal (([exT1, exT2].map (fun t => t.fields)).join) f) :=
  ⟨by decide, by simp, by decide,
   addToSync_upsert_consolidation [] "IF1" [exT1, exT2] (by decide) (by simp) (by decide)⟩

end OrchSpec
